import Mathlib

/-!
Shallow embedding of `results.py` (orca-python): the `ReportUnit` / `Results`
in-memory result model (`getReportUnit`, `addRecord`) and the summary
reduction (`createSummary`), together with the pure parts of `saveResults`
(per-unit row ordering, summary index assembly, prediction artifacts).

Modelling conventions:
* Python ordered dictionaries are association lists (`ODict`); assignment
  `d[k] = v` updates an existing key in place and otherwise appends.
* Numeric scalars are rationals; a pandas `NaN` result is `none`.
* `pandas.Series.std` (default `ddof = 1`) is represented by the sample
  variance it is the square root of, so everything stays computable; claims
  about a standard deviation `s` are phrased as `0 ≤ s ∧ s ^ 2 = variance`.
* Trained models are opaque: an arbitrary type `μ`.
-/

namespace Orca

/-- A Python ordered dict with string keys, as an association list. -/
abbrev ODict (α : Type) := List (String × α)

/-- The keys of an ordered dict, in order. -/
def odKeys {α : Type} (d : ODict α) : List String := d.map Prod.fst

/-- Python `d[k] = v`: if `k` is already present its value is updated in
place (the position is preserved), otherwise the pair is appended. -/
def odInsert {α : Type} (d : ODict α) (k : String) (v : α) : ODict α :=
  if k ∈ odKeys d then d.map (fun p => if p.1 = k then (k, v) else p)
  else d ++ [(k, v)]

/-- Python `d[k]` as an option: the value stored under `k`, if any. -/
def odGet {α : Type} (d : ODict α) (k : String) : Option α := d.lookup k

/-- A `best_params` value: either a scalar, or (for ensemble methods) a
nested dict of meta-classifier parameters. -/
inductive PValue where
  | scalar (v : ℚ)
  | nested (d : ODict ℚ)
deriving DecidableEq

/-- The `predictions` payload of `addRecord`: train labels are required,
test labels may be `None` (no held-out test set). -/
structure Predictions where
  train : List ℤ
  test : Option (List ℤ)
deriving DecidableEq

/-- The `metrics` payload of `addRecord`; a missing `train` / `test` key in
the Python dict is `none` here (accessing it raises `KeyError`). -/
structure Metrics where
  train : Option (ODict ℚ)
  test : Option (ODict ℚ)
deriving DecidableEq

/-- Model of `ReportUnit`: accumulator for one (dataset, configuration) pair
(`results.py`, class `ReportUnit`). -/
structure ReportUnit (μ : Type) where
  dataset_ : String
  configuration_ : String
  df_ : ODict (ODict ℚ)
  models_ : ODict μ
  predictions_ : ODict Predictions
deriving DecidableEq

/-- Model of `ReportUnit.__init__`: a fresh empty unit. -/
def ReportUnit.new (μ : Type) (d c : String) : ReportUnit μ := ⟨d, c, [], [], []⟩

/-- Model of `Results`: the list of `ReportUnit`s, in creation order. -/
structure Results (μ : Type) where
  reports_ : List (ReportUnit μ)
deriving DecidableEq

/-- The `for ru in self.reports_` search loop of `getReportUnit`: index of
the first unit matching both names, if any. -/
def findRU {μ : Type} : List (ReportUnit μ) → String → String → Option ℕ
  | [], _, _ => none
  | ru :: rest, d, c =>
      if ru.dataset_ = d ∧ ru.configuration_ = c then some 0
      else (findRU rest d c).map (· + 1)

/-- Model of `Results.getReportUnit`: return the existing unit for the pair, or
create an empty one and append it.  The returned index identifies the unit
(object identity in Python). -/
def getReportUnit {μ : Type} (rs : Results μ) (d c : String) : Results μ × ℕ :=
  match findRU rs.reports_ d c with
  | some i => (rs, i)
  | none => (⟨rs.reports_ ++ [ReportUnit.new μ d c]⟩, rs.reports_.length)

/-- The inner `for (k, v) in p_value.items()` loop of `addRecord`: insert
every entry of a nested parameter dict into the row. -/
def insertAll {α : Type} (row : ODict α) : List (String × α) → ODict α
  | [] => row
  | kv :: rest => insertAll (odInsert row kv.1 kv.2) rest

/-- The `best_params` flattening loop of `addRecord`: a nested dict value is
spliced entry by entry (its outer key dropped), a scalar is stored under its
own key. -/
def flattenLoop (row : ODict ℚ) : ODict PValue → ODict ℚ
  | [] => row
  | p :: rest =>
      match p.2 with
      | .nested d => flattenLoop (insertAll row d) rest
      | .scalar v => flattenLoop (odInsert row p.1 v) rest

/-- The flattened `best_params` block of the row (the loop started from the
empty `OrderedDict`). -/
def flattenParams (bestParams : ODict PValue) : ODict ℚ := flattenLoop [] bestParams

/-- The metric loop of `addRecord`, running over the `zip` of the `train`
and `test` items: insert the train entry, then the test entry. -/
def metricsLoop (row : ODict ℚ) : List ((String × ℚ) × (String × ℚ)) → ODict ℚ
  | [] => row
  | pr :: rest => metricsLoop (odInsert (odInsert row pr.1.1 pr.1.2) pr.2.1 pr.2.2) rest

/-- The metric part of `addRecord`: Python `zip` truncates to the shorter of
the two item lists. -/
def addMetrics (row : ODict ℚ) (mtrain mtest : ODict ℚ) : ODict ℚ :=
  metricsLoop row (List.zip mtrain mtest)

/-- The full `dataframe_row` built by `addRecord`. -/
def buildRow (bestParams : ODict PValue) (mtrain mtest : ODict ℚ) : ODict ℚ :=
  addMetrics (flattenParams bestParams) mtrain mtest

/-- The mutation `addRecord` performs on the located unit: store the row,
the model and the predictions under the partition key. -/
def updateRU {μ : Type} (partition : String) (row : ODict ℚ) (bestModel : μ)
    (predictions : Predictions) (ru : ReportUnit μ) : ReportUnit μ :=
  { ru with
      df_ := odInsert ru.df_ partition row
      models_ := odInsert ru.models_ partition bestModel
      predictions_ := odInsert ru.predictions_ partition predictions }

/-- Model of `Results.addRecord`.  Here `partition` is the already-stringified partition
key (`str(partition)`); the two configuration strings are
`configuration['dataset']` and `configuration['config']`.  Accessing a
missing `train` / `test` key of `metrics` raises (`KeyError`), modelled as
`Except.error`. -/
def addRecord {μ : Type} (rs : Results μ) (partition : String)
    (bestParams : ODict PValue) (bestModel : μ) (confDataset confConfig : String)
    (metrics : Metrics) (predictions : Predictions) : Except String (Results μ) :=
  match metrics.train, metrics.test with
  | some mtr, some mts =>
      let p := getReportUnit rs confDataset confConfig
      .ok ⟨p.1.reports_.modify
            (updateRU partition (buildRow bestParams mtr mts) bestModel predictions) p.2⟩
  | _, _ => .error "KeyError: metrics must contain train and test"

/-! ## Pure parts of `saveResults` -/

/-- Python string comparison `a < b`: lexicographic on code points. -/
def charsLt : List Char → List Char → Bool
  | [], _ :: _ => true
  | _, [] => false
  | a :: as, b :: bs =>
      if a.toNat < b.toNat then true
      else if b.toNat < a.toNat then false
      else charsLt as bs

/-- Python `a < b` on strings. -/
def strLt (a b : String) : Bool := charsLt a.data b.data

/-- Model of `sorted(report.df_.items())`: the per-unit table rows, ordered by the
partition key (ascending lexicographic string order).  Python's sort is
stable and, with distinct keys, only the key is ever compared. -/
def sortedTable (df : ODict (ODict ℚ)) : ODict (ODict ℚ) :=
  List.insertionSort (fun a b => strLt b.1 a.1 = false) df

/-- Python `str.strip()`: drop leading and trailing whitespace. -/
def pyStrip (s : String) : String :=
  ⟨((s.data.dropWhile Char.isWhitespace).reverse.dropWhile Char.isWhitespace).reverse⟩

/-- The row labels of the two summary tables, built in `self.reports_` order:
`report.dataset_.strip() + "-" + report.configuration_`. -/
def summaryIndex {μ : Type} (rs : Results μ) : List String :=
  rs.reports_.map (fun r => pyStrip r.dataset_ ++ "-" ++ r.configuration_)

/-- A prediction file written by `saveResults`, identified by split and
partition key (the file name `train_`/`test_` + dataset-configuration + `.` +
partition determines and is determined by this pair within one unit). -/
inductive Artifact where
  | train (partition : String)
  | test (partition : String)
deriving DecidableEq

/-- The prediction-saving loop of `saveResults` for one unit: for every
partition, a train artifact is always written; a test artifact only when
`predictions['test'] is not None`. -/
def predictionArtifacts {μ : Type} (ru : ReportUnit μ) : List Artifact :=
  ru.predictions_.foldr
    (fun p acc =>
      Artifact.train p.1 ::
        ((match p.2.test with
          | some _ => [Artifact.test p.1]
          | none => []) ++ acc))
    []

/-! ## `createSummary` -/

/-- Column `j` of the materialized per-unit table. -/
def column (df : List (List ℚ)) (j : ℕ) : List ℚ := df.map (fun r => r.getD j 0)

/-- Model of `pandas.Series.mean`: the arithmetic mean; `NaN` (`none`) on an empty
column. -/
def listMean (xs : List ℚ) : Option ℚ :=
  if xs.length = 0 then none else some (xs.sum / (xs.length : ℚ))

/-- The square of `pandas.Series.std` (default `ddof = 1`): the sample
variance with `n - 1` denominator; `NaN` (`none`) when fewer than two values
are present. -/
def listVar (xs : List ℚ) : Option ℚ :=
  if xs.length < 2 then none
  else
    match listMean xs with
    | some m => some ((xs.map (fun x => (x - m) ^ 2)).sum / ((xs.length : ℚ) - 1))
    | none => none

/-- A summary cell: a mean value, or a standard deviation represented by the
sample variance it is the square root of. -/
inductive SVal where
  | mean (v : Option ℚ)
  | std (var : Option ℚ)
deriving DecidableEq

/-- The column indices picked by the Python slice `a : b : 2`:
`a, a + 2, …` strictly below `b`. -/
def stride2 (a b : ℕ) : List ℕ := (List.range ((b - a + 1) / 2)).map (fun i => a + 2 * i)

/-- The `sum(zip(xs, ys), ())` idiom: interleave two lists, truncating to
the shorter. -/
def interleave {α : Type} : List α → List α → List α
  | a :: as, b :: bs => a :: b :: interleave as bs
  | _, _ => []

/-- One half (train or test) of `createSummary`: means and variances of the
selected columns, labelled with `avgIdx` / `stdIdx`, concatenated, then
re-selected by label in interleaved order (`row[list(sum(zip(...), ()))]`). -/
def summaryHalf (df : List (List ℚ)) (cols : List ℕ) (avgIdx stdIdx : List String) :
    List (String × SVal) :=
  let avgs := List.zip avgIdx (cols.map (fun j => SVal.mean (listMean (column df j))))
  let stds := List.zip stdIdx (cols.map (fun j => SVal.std (listVar (column df j))))
  let row0 := avgs ++ stds
  (interleave avgIdx stdIdx).map (fun n => (n, (row0.lookup n).getD (SVal.mean none)))

/-- Model of `Results.createSummary`: split off the trailing 4 timing columns and the
leading `C - 2*M - 4` hyperparameter columns, take even-offset metric
columns as train and odd-offset as test, reduce each to interleaved
`{metric}_mean`, `{metric}_std` cells. -/
def createSummary (df : List (List ℚ)) (C : ℕ) (metricsNames : List String) :
    List (String × SVal) × List (String × SVal) :=
  let M := metricsNames.length
  let nParameters := C - M * 2 - 4
  let avgIdx := metricsNames.map (fun mn => mn ++ "_mean")
  let stdIdx := metricsNames.map (fun mn => mn ++ "_std")
  (summaryHalf df (stride2 nParameters (C - 4)) avgIdx stdIdx,
   summaryHalf df (stride2 (nParameters + 1) (C - 4)) avgIdx stdIdx)

/-- The value matrix handed to `createSummary` for one unit: the sorted
rows' values. -/
def unitMatrix {μ : Type} (ru : ReportUnit μ) : List (List ℚ) :=
  (sortedTable ru.df_).map (fun p => p.2.map Prod.snd)

/-- The column count of that matrix (`len(df.columns)`): with the
homogeneous-row invariant, the length of the first row. -/
def unitCols {μ : Type} (ru : ReportUnit μ) : ℕ :=
  ((sortedTable ru.df_).head?.map (fun p => p.2.length)).getD 0

/-- The summary-table assembly loop of `saveResults`: one labelled row per
`ReportUnit`, in `self.reports_` order (train table, test table). -/
def buildSummaries {μ : Type} (rs : Results μ) (metricsNames : List String) :
    List (String × List (String × SVal)) × List (String × List (String × SVal)) :=
  (rs.reports_.map (fun ru =>
      (pyStrip ru.dataset_ ++ "-" ++ ru.configuration_,
       (createSummary (unitMatrix ru) (unitCols ru) metricsNames).1)),
   rs.reports_.map (fun ru =>
      (pyStrip ru.dataset_ ++ "-" ++ ru.configuration_,
       (createSummary (unitMatrix ru) (unitCols ru) metricsNames).2)))

/-! ## Lemmas about `findRU` and `getReportUnit` -/

/-- Number of units stored for a (dataset, configuration) pair. -/
def countRU {μ : Type} (l : List (ReportUnit μ)) (d c : String) : ℕ :=
  l.countP (fun ru => decide (ru.dataset_ = d ∧ ru.configuration_ = c))

theorem findRU_eq_none_iff {μ : Type} (l : List (ReportUnit μ)) (d c : String) :
    findRU l d c = none ↔ ∀ ru ∈ l, ¬(ru.dataset_ = d ∧ ru.configuration_ = c) := by
  induction l with
  | nil => simp [findRU]
  | cons ru rest ih =>
      by_cases h : ru.dataset_ = d ∧ ru.configuration_ = c
      · simp [findRU, h]
      · constructor
        · intro hn ru' hmem
          rcases List.mem_cons.mp hmem with rfl | hmem'
          · exact h
          · have hrest : findRU rest d c = none := by
              rw [findRU, if_neg h] at hn
              exact Option.map_eq_none'.mp hn
            exact ih.mp hrest ru' hmem'
        · intro hall
          rw [findRU, if_neg h,
            ih.mpr (fun ru' hm => hall ru' (List.mem_cons_of_mem _ hm))]
          rfl

theorem findRU_some {μ : Type} {l : List (ReportUnit μ)} {d c : String} {i : ℕ}
    (h : findRU l d c = some i) :
    ∃ ru, l[i]? = some ru ∧ ru.dataset_ = d ∧ ru.configuration_ = c := by
  induction l generalizing i with
  | nil => simp [findRU] at h
  | cons ru rest ih =>
      by_cases hm : ru.dataset_ = d ∧ ru.configuration_ = c
      · rw [findRU, if_pos hm] at h
        injection h with h
        subst h
        exact ⟨ru, by simp, hm⟩
      · rw [findRU, if_neg hm] at h
        obtain ⟨j, hj, hji⟩ := Option.map_eq_some'.mp h
        obtain ⟨ru', hget, hmm⟩ := ih hj
        refine ⟨ru', ?_, hmm⟩
        rw [← hji]
        simpa using hget

theorem findRU_append_of_none {μ : Type} {l : List (ReportUnit μ)} {d c : String}
    (l' : List (ReportUnit μ)) (h : findRU l d c = none) :
    findRU (l ++ l') d c = (findRU l' d c).map (· + l.length) := by
  induction l with
  | nil => cases hl : findRU l' d c <;> simp [hl]
  | cons ru rest ih =>
      by_cases hm : ru.dataset_ = d ∧ ru.configuration_ = c
      · rw [findRU, if_pos hm] at h; cases h
      · rw [findRU, if_neg hm] at h
        have hrest : findRU rest d c = none := Option.map_eq_none'.mp h
        rw [List.cons_append, findRU, if_neg hm, ih hrest]
        cases hl : findRU l' d c with
        | none => simp
        | some j =>
            simp [List.length_cons, Nat.add_assoc]

theorem countRU_pos_of_findRU_some {μ : Type} {l : List (ReportUnit μ)} {d c : String}
    {i : ℕ} (h : findRU l d c = some i) : 1 ≤ countRU l d c := by
  obtain ⟨ru, hget, hm⟩ := findRU_some h
  have hmem : ru ∈ l := by
    have := List.getElem?_eq_some_iff.mp hget
    obtain ⟨hlt, he⟩ := this
    exact he ▸ List.getElem_mem hlt
  have : 0 < countRU l d c := by
    rw [countRU, List.countP_pos_iff]
    exact ⟨ru, hmem, by simpa using hm⟩
  omega

theorem countRU_eq_zero_of_findRU_none {μ : Type} {l : List (ReportUnit μ)} {d c : String}
    (h : findRU l d c = none) : countRU l d c = 0 := by
  rw [countRU, List.countP_eq_zero]
  intro ru hmem
  simpa using (findRU_eq_none_iff l d c).mp h ru hmem

/-- Claim C5: `getReportUnit` is an idempotent get-or-create: it returns a unit
matching both keys; calling it again with the same arguments returns the very
same unit of the unchanged store; it never creates a duplicate for an equal
pair and never touches units of other pairs; on a miss it appends one fresh
empty unit at the end of `reports_` and returns its index. -/
theorem C5_getReportUnit_get_or_create {μ : Type} (rs : Results μ) (d c : String) :
    (∃ ru, (getReportUnit rs d c).1.reports_[(getReportUnit rs d c).2]? = some ru ∧
        ru.dataset_ = d ∧ ru.configuration_ = c) ∧
    getReportUnit (getReportUnit rs d c).1 d c = getReportUnit rs d c ∧
    countRU (getReportUnit rs d c).1.reports_ d c = max (countRU rs.reports_ d c) 1 ∧
    (∀ d' c', ¬(d' = d ∧ c' = c) →
        countRU (getReportUnit rs d c).1.reports_ d' c' = countRU rs.reports_ d' c') ∧
    (findRU rs.reports_ d c = none →
        (getReportUnit rs d c).1.reports_ = rs.reports_ ++ [ReportUnit.new μ d c] ∧
        (getReportUnit rs d c).2 = rs.reports_.length) ∧
    (∀ i, findRU rs.reports_ d c = some i → getReportUnit rs d c = (rs, i)) := by
  cases hf : findRU rs.reports_ d c with
  | some i =>
      have hg : getReportUnit rs d c = (rs, i) := by
        unfold getReportUnit; rw [hf]
      rw [hg]
      refine ⟨?_, ?_, ?_, ?_, ?_, ?_⟩
      · obtain ⟨ru, hget, hm⟩ := findRU_some hf
        exact ⟨ru, hget, hm⟩
      · show getReportUnit rs d c = (rs, i)
        exact hg
      · show countRU rs.reports_ d c = max (countRU rs.reports_ d c) 1
        have := countRU_pos_of_findRU_some hf
        omega
      · intro d' c' _
        rfl
      · intro hnone
        exact Option.noConfusion hnone
      · intro j hj
        injection hj with hj
        rw [hj]
  | none =>
      have hg : getReportUnit rs d c =
          (⟨rs.reports_ ++ [ReportUnit.new μ d c]⟩, rs.reports_.length) := by
        unfold getReportUnit; rw [hf]
      have hmatch : (ReportUnit.new μ d c).dataset_ = d ∧
          (ReportUnit.new μ d c).configuration_ = c := ⟨rfl, rfl⟩
      have hfind1 : findRU (rs.reports_ ++ [ReportUnit.new μ d c]) d c =
          some rs.reports_.length := by
        rw [findRU_append_of_none _ hf]
        simp [findRU, hmatch]
      rw [hg]
      refine ⟨?_, ?_, ?_, ?_, ?_, ?_⟩
      · refine ⟨ReportUnit.new μ d c, ?_, hmatch⟩
        simp
      · show getReportUnit (⟨rs.reports_ ++ [ReportUnit.new μ d c]⟩ : Results μ) d c = _
        unfold getReportUnit
        rw [hfind1]
      · show countRU (rs.reports_ ++ [ReportUnit.new μ d c]) d c = _
        have h0 := countRU_eq_zero_of_findRU_none hf
        simp only [countRU] at h0 ⊢
        rw [List.countP_append, h0, List.countP_singleton]
        simp [ReportUnit.new]
      · intro d' c' hne
        show countRU (rs.reports_ ++ [ReportUnit.new μ d c]) d' c' = _
        have hno : ¬(d = d' ∧ c = c') := fun hcon => hne ⟨hcon.1.symm, hcon.2.symm⟩
        simp only [countRU, List.countP_append, List.countP_singleton, ReportUnit.new]
        simp [hno]
      · intro _
        exact ⟨rfl, rfl⟩
      · intro j hj
        exact Option.noConfusion hj

/-- Closed instance of C5: starting from an empty store, looking the pair
(iris, cfg1) up twice returns the same unit and creates exactly one unit. -/
theorem C5_witness :
    getReportUnit (getReportUnit (⟨[]⟩ : Results ℕ) "iris" "cfg1").1 "iris" "cfg1" =
      getReportUnit (⟨[]⟩ : Results ℕ) "iris" "cfg1" ∧
    (getReportUnit (⟨[]⟩ : Results ℕ) "iris" "cfg1").1.reports_ =
      [ReportUnit.new ℕ "iris" "cfg1"] := by
  refine ⟨(C5_getReportUnit_get_or_create (⟨[]⟩ : Results ℕ) "iris" "cfg1").2.1, ?_⟩
  have := ((C5_getReportUnit_get_or_create (⟨[]⟩ : Results ℕ) "iris" "cfg1").2.2.2.2.1
    (by rfl)).1
  simpa using this

/-! ## Lemmas about ordered-dict insertion -/

theorem odInsert_of_not_mem {α : Type} {d : ODict α} {k : String} (v : α)
    (h : k ∉ odKeys d) : odInsert d k v = d ++ [(k, v)] := by
  rw [odInsert, if_neg h]

theorem odKeys_append {α : Type} (d d' : ODict α) :
    odKeys (d ++ d') = odKeys d ++ odKeys d' := by
  simp [odKeys]

theorem odKeys_odInsert_of_mem {α : Type} {d : ODict α} {k : String} (v : α)
    (h : k ∈ odKeys d) : odKeys (odInsert d k v) = odKeys d := by
  rw [odInsert, if_pos h]
  simp only [odKeys, List.map_map]
  apply List.map_congr_left
  intro p _
  by_cases hp : p.1 = k
  · simp [hp]
  · simp [hp]

@[simp]
theorem odKeys_cons {α : Type} (p : String × α) (d : ODict α) :
    odKeys (p :: d) = p.1 :: odKeys d := rfl

theorem lookup_map_replace {α : Type} {d : ODict α} {k : String} (v : α)
    (hk : k ∈ odKeys d) :
    List.lookup k (d.map (fun p => if p.1 = k then (k, v) else p)) = some v := by
  induction d with
  | nil => simp [odKeys] at hk
  | cons p rest ih =>
      by_cases hp : p.1 = k
      · rw [List.map_cons, if_pos hp]
        simp [List.lookup]
      · rw [List.map_cons, if_neg hp]
        have hbeq : (k == p.1) = false := by
          simp only [beq_eq_false_iff_ne, ne_eq]
          exact fun he => hp he.symm
        have hr : k ∈ odKeys rest := by
          rw [odKeys_cons] at hk
          rcases List.mem_cons.mp hk with h1 | h1
          · exact absurd h1.symm hp
          · exact h1
        rw [List.lookup, hbeq]
        exact ih hr

theorem lookup_map_replace_other {α : Type} {d : ODict α} {k k' : String} (v : α)
    (hne : k' ≠ k) :
    List.lookup k' (d.map (fun p => if p.1 = k then (k, v) else p)) =
      List.lookup k' d := by
  induction d with
  | nil => simp
  | cons p rest ih =>
      by_cases hp : p.1 = k
      · rw [List.map_cons, if_pos hp]
        have h1 : (k' == k) = false := by simp [beq_eq_false_iff_ne, hne]
        have h2 : (k' == p.1) = false := by
          rw [hp]
          exact h1
        rw [List.lookup, h1, List.lookup, h2]
        exact ih
      · rw [List.map_cons, if_neg hp]
        rw [List.lookup, List.lookup]
        cases hbeq : (k' == p.1) with
        | true => rfl
        | false => exact ih

theorem lookup_append_single {α : Type} (d : ODict α) (k : String) (v : α)
    (hk : k ∉ odKeys d) : List.lookup k (d ++ [(k, v)]) = some v := by
  induction d with
  | nil => simp [List.lookup]
  | cons p rest ih =>
      have hp : ¬k = p.1 := by
        intro he
        exact hk (by simp [he])
      have hr : k ∉ odKeys rest := by
        intro hm
        exact hk (by simp [hm])
      have hbeq : (k == p.1) = false := by simp [beq_eq_false_iff_ne, hp]
      rw [List.cons_append, List.lookup, hbeq]
      exact ih hr

theorem lookup_append_single_other {α : Type} (d : ODict α) {k k' : String} (v : α)
    (hne : k' ≠ k) : List.lookup k' (d ++ [(k, v)]) = List.lookup k' d := by
  induction d with
  | nil =>
      have hbeq : (k' == k) = false := by simp [beq_eq_false_iff_ne, hne]
      simp [List.lookup, hbeq]
  | cons p rest ih =>
      rw [List.cons_append, List.lookup, List.lookup]
      cases hbeq : (k' == p.1) with
      | true => rfl
      | false => exact ih

theorem odGet_odInsert_self {α : Type} (d : ODict α) (k : String) (v : α) :
    odGet (odInsert d k v) k = some v := by
  rw [odInsert]
  by_cases h : k ∈ odKeys d
  · rw [if_pos h]
    exact lookup_map_replace v h
  · rw [if_neg h]
    exact lookup_append_single d k v h

theorem odGet_odInsert_other {α : Type} (d : ODict α) (k k' : String) (v : α)
    (hne : k' ≠ k) : odGet (odInsert d k v) k' = odGet d k' := by
  rw [odInsert]
  by_cases h : k ∈ odKeys d
  · rw [if_pos h]
    exact lookup_map_replace_other v hne
  · rw [if_neg h]
    exact lookup_append_single_other d v hne

/-- Claim C8: When `addRecord` re-uses a partition key already present in the
located unit, it succeeds (no error) and silently replaces the stored row,
model and predictions for that key: the key sets are unchanged, the entry at
the key holds the new values, and every other key keeps its old values. -/
theorem C8_addRecord_last_write_wins {μ : Type} (rs : Results μ) (part : String)
    (bp : ODict PValue) (m : μ) (d c : String) (mtr mts : ODict ℚ)
    (pr : Predictions) (i : ℕ) (ru : ReportUnit μ)
    (hf : findRU rs.reports_ d c = some i) (hru : rs.reports_[i]? = some ru)
    (hk : part ∈ odKeys ru.df_) (hkm : part ∈ odKeys ru.models_)
    (hkp : part ∈ odKeys ru.predictions_) :
    ∃ rs', addRecord rs part bp m d c ⟨some mtr, some mts⟩ pr = .ok rs' ∧
      rs'.reports_.length = rs.reports_.length ∧
      rs'.reports_[i]? = some (updateRU part (buildRow bp mtr mts) m pr ru) ∧
      odKeys (updateRU part (buildRow bp mtr mts) m pr ru).df_ = odKeys ru.df_ ∧
      odKeys (updateRU part (buildRow bp mtr mts) m pr ru).models_ = odKeys ru.models_ ∧
      odKeys (updateRU part (buildRow bp mtr mts) m pr ru).predictions_ =
        odKeys ru.predictions_ ∧
      odGet (updateRU part (buildRow bp mtr mts) m pr ru).df_ part =
        some (buildRow bp mtr mts) ∧
      odGet (updateRU part (buildRow bp mtr mts) m pr ru).models_ part = some m ∧
      odGet (updateRU part (buildRow bp mtr mts) m pr ru).predictions_ part = some pr ∧
      (∀ k, k ≠ part →
        odGet (updateRU part (buildRow bp mtr mts) m pr ru).df_ k = odGet ru.df_ k) := by
  have hg : getReportUnit rs d c = (rs, i) := by
    unfold getReportUnit; rw [hf]
  refine ⟨⟨rs.reports_.modify (updateRU part (buildRow bp mtr mts) m pr) i⟩, ?_, ?_, ?_,
      ?_, ?_, ?_, ?_, ?_, ?_, ?_⟩
  · show addRecord _ _ _ _ _ _ _ _ = _
    unfold addRecord
    rw [hg]
  · simp [List.length_modify]
  · simp [List.getElem?_modify, hru]
  · exact odKeys_odInsert_of_mem _ hk
  · exact odKeys_odInsert_of_mem _ hkm
  · exact odKeys_odInsert_of_mem _ hkp
  · exact odGet_odInsert_self _ _ _
  · exact odGet_odInsert_self _ _ _
  · exact odGet_odInsert_self _ _ _
  · intro k hk'
    exact odGet_odInsert_other _ _ _ _ hk'

/-- Closed instance of C8: one unit with one stored partition, re-adding the
same partition key replaces the row without an error. -/
theorem C8_witness :
    ∃ rs', addRecord
        (⟨[⟨"iris", "cfg1", [("0", [("acc", 1)])], [("0", 7)], [("0", ⟨[1], none⟩)]⟩]⟩ :
          Results ℕ)
        "0" [] 9 "iris" "cfg1" ⟨some [("acc", 1/2)], some []⟩ ⟨[0], none⟩ = .ok rs' ∧
      rs'.reports_.length = 1 ∧
      rs'.reports_[0]? = some (updateRU "0" (buildRow [] [("acc", 1/2)] []) 9
        ⟨[0], none⟩
        ⟨"iris", "cfg1", [("0", [("acc", 1)])], [("0", 7)], [("0", ⟨[1], none⟩)]⟩) := by
  obtain ⟨rs', h1, h2, h3, -⟩ := C8_addRecord_last_write_wins
    (⟨[⟨"iris", "cfg1", [("0", [("acc", 1)])], [("0", 7)], [("0", ⟨[1], none⟩)]⟩]⟩ :
      Results ℕ)
    "0" [] 9 "iris" "cfg1" [("acc", 1/2)] [] ⟨[0], none⟩ 0
    ⟨"iris", "cfg1", [("0", [("acc", 1)])], [("0", 7)], [("0", ⟨[1], none⟩)]⟩
    (by simp [findRU]) (by simp) (by simp [odKeys]) (by simp [odKeys]) (by simp [odKeys])
  exact ⟨rs', h1, h2, h3⟩

/-! ## Row layout: flattening (C4) and metric interleaving (C3) -/

/-- The claim's explicit form of the flattened best-parameters block: a
scalar keeps its own key, a nested dict is spliced in place with the outer
key dropped, order preserved. -/
def paramsFlat (ps : ODict PValue) : ODict ℚ :=
  ps.flatMap (fun p =>
    match p.2 with
    | .scalar v => [(p.1, v)]
    | .nested d => d)

/-- The claim's explicit form of the metric block: one train entry then its
positionally-paired test entry, per metric, in supplied order. -/
def zipInterleave (mtr mts : ODict ℚ) : ODict ℚ :=
  (List.zip mtr mts).flatMap (fun pr => [pr.1, pr.2])

theorem insertAll_eq_append {α : Type} (entries : List (String × α)) (row : ODict α)
    (h : (odKeys row ++ odKeys entries).Nodup) :
    insertAll row entries = row ++ entries := by
  induction entries generalizing row with
  | nil => simp [insertAll]
  | cons kv rest ih =>
      have h1 : kv.1 ∉ odKeys row := by
        intro hmem
        rcases List.nodup_append.mp h with ⟨-, -, hdisj⟩
        exact hdisj hmem (by simp)
      have h2 : (odKeys (row ++ [kv]) ++ odKeys rest).Nodup := by
        simpa [odKeys_append, List.append_assoc] using h
      show insertAll (odInsert row kv.1 kv.2) rest = _
      rw [odInsert_of_not_mem _ h1, ih _ h2]
      simp

theorem flattenLoop_eq_append (ps : ODict PValue) (row : ODict ℚ)
    (h : (odKeys row ++ odKeys (paramsFlat ps)).Nodup) :
    flattenLoop row ps = row ++ paramsFlat ps := by
  induction ps generalizing row with
  | nil => simp [flattenLoop, paramsFlat]
  | cons p rest ih =>
      obtain ⟨k, pv⟩ := p
      cases pv with
      | scalar v =>
          have hps : paramsFlat ((k, PValue.scalar v) :: rest) =
              (k, v) :: paramsFlat rest := by
            simp [paramsFlat]
          rw [hps] at h
          have h1 : k ∉ odKeys row := by
            rcases List.nodup_append.mp h with ⟨-, -, hdisj⟩
            exact fun hmem => hdisj hmem (by simp)
          have h2 : (odKeys (row ++ [(k, v)]) ++ odKeys (paramsFlat rest)).Nodup := by
            simpa [odKeys_append, List.append_assoc] using h
          show flattenLoop (odInsert row k v) rest = _
          rw [odInsert_of_not_mem _ h1, ih _ h2, hps]
          simp
      | nested d =>
          have hps : paramsFlat ((k, PValue.nested d) :: rest) =
              d ++ paramsFlat rest := by
            simp [paramsFlat]
          rw [hps] at h
          have hnd : (odKeys row ++ odKeys d).Nodup := by
            have h' := h
            rw [odKeys_append, ← List.append_assoc] at h'
            exact List.Nodup.of_append_left h'
          have h2 : (odKeys (row ++ d) ++ odKeys (paramsFlat rest)).Nodup := by
            simpa [odKeys_append, List.append_assoc] using h
          show flattenLoop (insertAll row d) rest = _
          rw [insertAll_eq_append d row hnd, ih _ h2, hps]
          simp

/-- Claim C4: The leading block of the stored row is the flattened best
hyperparameters: a nested dict value is spliced in place with its outer key
omitted, a scalar keeps its own key, and the original order is preserved. -/
theorem C4_flattenParams_splices (ps : ODict PValue)
    (h : (odKeys (paramsFlat ps)).Nodup) :
    flattenParams ps = paramsFlat ps := by
  have h0 : (odKeys ([] : ODict ℚ) ++ odKeys (paramsFlat ps)).Nodup := by
    simpa [odKeys] using h
  simpa using flattenLoop_eq_append ps [] h0

/-- Closed instance of C4: `{"a": 1, "b": {"x": 2, "y": 3}}` flattens to
keys `a, x, y` with values `1, 2, 3` in order, and key `b` is absent. -/
theorem C4_witness :
    (odKeys (paramsFlat [("a", .scalar 1), ("b", .nested [("x", 2), ("y", 3)])])).Nodup ∧
    flattenParams [("a", .scalar 1), ("b", .nested [("x", 2), ("y", 3)])] =
      [("a", 1), ("x", 2), ("y", 3)] ∧
    "b" ∉ odKeys (flattenParams [("a", .scalar 1), ("b", .nested [("x", 2), ("y", 3)])]) := by
  refine ⟨by decide, ?_, ?_⟩
  · exact (C4_flattenParams_splices _ (by decide)).trans rfl
  · rw [C4_flattenParams_splices _ (by decide)]
    decide

theorem metricsLoop_eq_append (prs : List ((String × ℚ) × (String × ℚ)))
    (row : ODict ℚ)
    (h : (odKeys row ++ odKeys (prs.flatMap (fun pr => [pr.1, pr.2]))).Nodup) :
    metricsLoop row prs = row ++ prs.flatMap (fun pr => [pr.1, pr.2]) := by
  induction prs generalizing row with
  | nil => simp [metricsLoop]
  | cons pr rest ih =>
      have hx : (pr :: rest).flatMap (fun pr => [pr.1, pr.2]) =
          pr.1 :: pr.2 :: rest.flatMap (fun pr => [pr.1, pr.2]) := by
        simp
      rw [hx] at h
      have h1 : pr.1.1 ∉ odKeys row := by
        rcases List.nodup_append.mp h with ⟨-, -, hdisj⟩
        exact fun hmem => hdisj hmem (by simp)
      have h2 : pr.2.1 ∉ odKeys (row ++ [pr.1]) := by
        rw [odKeys_append]
        intro hmem
        rcases List.mem_append.mp hmem with hm | hm
        · rcases List.nodup_append.mp h with ⟨-, -, hdisj⟩
          exact hdisj hm (by simp)
        · rcases List.nodup_append.mp h with ⟨-, hnd, -⟩
          rcases List.nodup_cons.mp hnd with ⟨hnmem, -⟩
          have heq : pr.2.1 = pr.1.1 := by simpa [odKeys] using hm
          apply hnmem
          rw [odKeys_cons] at *
          rw [heq.symm] at *
          exact List.mem_cons_self _ _
      have h3 : (odKeys (row ++ [pr.1] ++ [pr.2]) ++
          odKeys (rest.flatMap (fun pr => [pr.1, pr.2]))).Nodup := by
        simpa [odKeys_append, List.append_assoc] using h
      show metricsLoop (odInsert (odInsert row pr.1.1 pr.1.2) pr.2.1 pr.2.2) rest = _
      rw [odInsert_of_not_mem _ h1, odInsert_of_not_mem _ h2, ih _ h3, hx]
      simp

theorem addMetrics_eq_append (mtr mts : ODict ℚ) (row : ODict ℚ)
    (h : (odKeys row ++ odKeys (zipInterleave mtr mts)).Nodup) :
    addMetrics row mtr mts = row ++ zipInterleave mtr mts :=
  metricsLoop_eq_append (List.zip mtr mts) row h

theorem getReportUnit_index_lt {μ : Type} (rs : Results μ) (d c : String) :
    (getReportUnit rs d c).2 < (getReportUnit rs d c).1.reports_.length := by
  cases hf : findRU rs.reports_ d c with
  | some i =>
      have hg : getReportUnit rs d c = (rs, i) := by
        unfold getReportUnit; rw [hf]
      rw [hg]
      obtain ⟨ru, hget, -⟩ := findRU_some hf
      exact (List.getElem?_eq_some_iff.mp hget).1
  | none =>
      have hg : getReportUnit rs d c =
          (⟨rs.reports_ ++ [ReportUnit.new μ d c]⟩, rs.reports_.length) := by
        unfold getReportUnit; rw [hf]
      rw [hg]
      simp

/-- Claim C3: With equal-length train/test metric payloads (and fresh,
pairwise-distinct column names), the stored row is the flattened
hyperparameter block followed by the interleaved metric block: one train
entry, then its positionally-paired test entry, per metric, in supplied
order.  The second conjunct ties this to `addRecord`: whenever the call
succeeds, the located unit stores exactly that row under the partition key. -/
theorem C3_addRecord_interleaves_metrics {μ : Type} (bp : ODict PValue)
    (mtr mts : ODict ℚ) (_hlen : mtr.length = mts.length)
    (hnd : (odKeys (flattenParams bp) ++ odKeys (zipInterleave mtr mts)).Nodup) :
    buildRow bp mtr mts = flattenParams bp ++ zipInterleave mtr mts ∧
    ∀ (rs : Results μ) (part : String) (m : μ) (d c : String) (pr : Predictions)
      (rs' : Results μ),
      addRecord rs part bp m d c ⟨some mtr, some mts⟩ pr = .ok rs' →
      ∃ (i : ℕ) (ru' : ReportUnit μ), rs'.reports_[i]? = some ru' ∧
        odGet ru'.df_ part = some (flattenParams bp ++ zipInterleave mtr mts) := by
  have hrow : buildRow bp mtr mts = flattenParams bp ++ zipInterleave mtr mts :=
    addMetrics_eq_append mtr mts (flattenParams bp) hnd
  refine ⟨hrow, ?_⟩
  intro rs part m d c pr rs' hok
  have hok' : rs' = ⟨(getReportUnit rs d c).1.reports_.modify
      (updateRU part (buildRow bp mtr mts) m pr) (getReportUnit rs d c).2⟩ := by
    unfold addRecord at hok
    exact (Except.ok.inj hok).symm
  subst hok'
  have hlt : (getReportUnit rs d c).2 < (getReportUnit rs d c).1.reports_.length :=
    getReportUnit_index_lt rs d c
  have hget1 : ((getReportUnit rs d c).1.reports_.modify
      (updateRU part (buildRow bp mtr mts) m pr)
      (getReportUnit rs d c).2)[(getReportUnit rs d c).2]? =
      some (updateRU part (buildRow bp mtr mts) m pr
        ((getReportUnit rs d c).1.reports_.get ⟨(getReportUnit rs d c).2, hlt⟩)) := by
    rw [List.getElem?_modify, List.getElem?_eq_getElem hlt]
    simp [List.get_eq_getElem]
  have hget2 : odGet (updateRU part (buildRow bp mtr mts) m pr
      ((getReportUnit rs d c).1.reports_.get
        ⟨(getReportUnit rs d c).2, hlt⟩)).df_ part =
      some (flattenParams bp ++ zipInterleave mtr mts) := by
    show odGet (odInsert _ part (buildRow bp mtr mts)) part = _
    rw [odGet_odInsert_self, hrow]
  exact ⟨(getReportUnit rs d c).2, _, hget1, hget2⟩

/-- Closed instance of C3: metrics `acc`, `f1` produce the row columns
`acc_train, acc_test, f1_train, f1_test` in that order with their values. -/
theorem C3_witness :
    [("acc_train", (9:ℚ)/10), ("f1_train", (8:ℚ)/10)].length =
      [("acc_test", (85:ℚ)/100), ("f1_test", (75:ℚ)/100)].length ∧
    buildRow [] [("acc_train", (9:ℚ)/10), ("f1_train", (8:ℚ)/10)]
        [("acc_test", (85:ℚ)/100), ("f1_test", (75:ℚ)/100)] =
      [("acc_train", (9:ℚ)/10), ("acc_test", (85:ℚ)/100),
       ("f1_train", (8:ℚ)/10), ("f1_test", (75:ℚ)/100)] := by
  refine ⟨rfl, ?_⟩
  have h := (@C3_addRecord_interleaves_metrics ℕ []
    [("acc_train", (9:ℚ)/10), ("f1_train", (8:ℚ)/10)]
    [("acc_test", (85:ℚ)/100), ("f1_test", (75:ℚ)/100)] rfl (by decide)).1
  exact h.trans rfl

/-! ## C9: missing test predictions, and C6: malformed metrics payloads -/

theorem mem_unique_of_nodup_keys {α : Type} {l : List (String × α)}
    (hnd : (odKeys l).Nodup) {k : String} {a b : α}
    (ha : (k, a) ∈ l) (hb : (k, b) ∈ l) : a = b := by
  induction l with
  | nil => cases ha
  | cons p rest ih =>
      rw [odKeys_cons] at hnd
      rcases List.nodup_cons.mp hnd with ⟨hnmem, hrest⟩
      rcases List.mem_cons.mp ha with ha1 | ha1
      · rcases List.mem_cons.mp hb with hb1 | hb1
        · exact congrArg Prod.snd (ha1.trans hb1.symm)
        · exfalso
          apply hnmem
          have hk : k ∈ List.map Prod.fst rest := List.mem_map_of_mem Prod.fst hb1
          rw [← ha1]
          exact hk
      · rcases List.mem_cons.mp hb with hb1 | hb1
        · exfalso
          apply hnmem
          have hk : k ∈ List.map Prod.fst rest := List.mem_map_of_mem Prod.fst ha1
          rw [← hb1]
          exact hk
        · exact ih hrest ha1 hb1

theorem predictionArtifacts_eq_flatMap {μ : Type} (ru : ReportUnit μ) :
    predictionArtifacts ru =
      ru.predictions_.flatMap (fun p =>
        Artifact.train p.1 ::
          (match p.2.test with
            | some _ => [Artifact.test p.1]
            | none => [])) := by
  rw [predictionArtifacts]
  induction ru.predictions_ with
  | nil => rfl
  | cons p rest ih => simp [ih]

/-- Claim C9: A partition whose predictions have no test sequence produces no
test-prediction artifact at save time, while its train-prediction artifact
is still produced. -/
theorem C9_no_test_artifact_when_absent {μ : Type} (ru : ReportUnit μ) (part : String)
    (pr : Predictions) (hmem : (part, pr) ∈ ru.predictions_)
    (hnd : (odKeys ru.predictions_).Nodup) (htest : pr.test = none) :
    Artifact.train part ∈ predictionArtifacts ru ∧
    Artifact.test part ∉ predictionArtifacts ru := by
  rw [predictionArtifacts_eq_flatMap]
  constructor
  · exact List.mem_flatMap.mpr ⟨(part, pr), hmem, by simp⟩
  · intro hin
    obtain ⟨q, hq, hinq⟩ := List.mem_flatMap.mp hin
    rcases List.mem_cons.mp hinq with heq | hinq2
    · exact Artifact.noConfusion heq
    · cases hqt : q.2.test with
      | none =>
          rw [hqt] at hinq2
          simp at hinq2
      | some w =>
          rw [hqt] at hinq2
          simp only [List.mem_singleton, Artifact.test.injEq] at hinq2
          obtain ⟨q1, q2⟩ := q
          simp only at hinq2 hqt
          rw [hinq2] at hmem
          have hqp : q2 = pr := mem_unique_of_nodup_keys hnd hq hmem
          rw [hqp, htest] at hqt
          cases hqt

/-- Closed instance of C9: a unit with two partitions, one with and one
without test predictions. -/
theorem C9_witness :
    Artifact.train "1" ∈ predictionArtifacts
      (⟨"d", "c", [], [], [("0", ⟨[1], some [2]⟩), ("1", ⟨[3], none⟩)]⟩ :
        ReportUnit ℕ) ∧
    Artifact.test "1" ∉ predictionArtifacts
      (⟨"d", "c", [], [], [("0", ⟨[1], some [2]⟩), ("1", ⟨[3], none⟩)]⟩ :
        ReportUnit ℕ) :=
  C9_no_test_artifact_when_absent
    (⟨"d", "c", [], [], [("0", ⟨[1], some [2]⟩), ("1", ⟨[3], none⟩)]⟩ : ReportUnit ℕ)
    "1" ⟨[3], none⟩ (by simp) (by decide) rfl

theorem zip_take_take {α β : Type} : ∀ (l1 : List α) (l2 : List β),
    List.zip l1 l2 = List.zip (l1.take l2.length) (l2.take l1.length)
  | [], l2 => by simp
  | a :: as, [] => by simp
  | a :: as, b :: bs => by
      simp only [List.zip_cons_cons, List.length_cons, List.take_succ_cons]
      rw [← zip_take_take as bs]

/-- Counterexample to C6 as stated: a metrics payload whose `train` dict has
two entries but whose `test` dict has one does NOT make `addRecord` fail;
Python `zip` silently truncates, storing only the first train/test pair (the
entry `("b_train", 2)` is dropped). -/
theorem C6_counterexample :
    addRecord (⟨[]⟩ : Results ℕ) "0" [] 0 "d" "c"
        ⟨some [("a_train", 1), ("b_train", 2)], some [("a_test", 3)]⟩ ⟨[], none⟩ =
      .ok ⟨[⟨"d", "c", [("0", [("a_train", 1), ("a_test", 3)])], [("0", 0)],
        [("0", ⟨[], none⟩)]⟩]⟩ := rfl

/-- Claim C6, amended: `addRecord` fails fast when the metrics payload lacks
the `train` key or the `test` key; with both keys present it always
succeeds, and mismatched-length train/test dicts are silently truncated to
the shorter length by `zip` (no error is raised). -/
theorem C6_addRecord_fails_only_on_missing_keys {μ : Type} (rs : Results μ)
    (part : String) (bp : ODict PValue) (m : μ) (d c : String) (metrics : Metrics)
    (pr : Predictions) :
    ((metrics.train = none ∨ metrics.test = none) →
      ∃ e, addRecord rs part bp m d c metrics pr = .error e) ∧
    (∀ mtr mts, metrics.train = some mtr → metrics.test = some mts →
      (∃ rs', addRecord rs part bp m d c metrics pr = .ok rs') ∧
      buildRow bp mtr mts = buildRow bp (mtr.take mts.length) (mts.take mtr.length)) := by
  obtain ⟨t, u⟩ := metrics
  constructor
  · intro hmiss
    cases t with
    | none => exact ⟨_, rfl⟩
    | some mtr =>
        cases u with
        | none => exact ⟨_, rfl⟩
        | some mts =>
            rcases hmiss with h | h <;> cases h
  · intro mtr mts htr hts
    cases t with
    | none => cases htr
    | some t0 =>
        cases u with
        | none => cases hts
        | some u0 =>
            injection htr with htr
            injection hts with hts
            subst htr
            subst hts
            refine ⟨⟨_, rfl⟩, ?_⟩
            rw [buildRow, buildRow, addMetrics, addMetrics]
            rw [zip_take_take t0 u0]

/-- Closed instance of the amended C6: a payload missing `test` raises, a
complete payload succeeds. -/
theorem C6_witness :
    (∃ e, addRecord (⟨[]⟩ : Results ℕ) "0" [] 0 "d" "c"
      ⟨some [("a_train", 1)], none⟩ ⟨[], none⟩ = .error e) ∧
    (∃ rs', addRecord (⟨[]⟩ : Results ℕ) "0" [] 0 "d" "c"
      ⟨some [("a_train", 1)], some [("a_test", 2)]⟩ ⟨[], none⟩ = .ok rs') := by
  constructor
  · exact (C6_addRecord_fails_only_on_missing_keys (⟨[]⟩ : Results ℕ) "0" [] 0 "d" "c"
      ⟨some [("a_train", 1)], none⟩ ⟨[], none⟩).1 (Or.inr rfl)
  · exact ((C6_addRecord_fails_only_on_missing_keys (⟨[]⟩ : Results ℕ) "0" [] 0 "d" "c"
      ⟨some [("a_train", 1)], some [("a_test", 2)]⟩ ⟨[], none⟩).2
      [("a_train", 1)] [("a_test", 2)] rfl rfl).1

/-! ## C10: per-unit table ordering, and C7: summary table ordering -/

theorem charsLt_asymm : ∀ {x y : List Char}, charsLt x y = true → charsLt y x = false
  | [], [], h => by simp [charsLt] at h
  | [], _ :: _, _ => by simp [charsLt]
  | _ :: _, [], h => by simp [charsLt] at h
  | a :: as, b :: bs, h => by
      rw [charsLt] at h ⊢
      by_cases h1 : a.toNat < b.toNat
      · rw [if_neg (by omega), if_pos h1]
      · rw [if_neg h1] at h
        by_cases h2 : b.toNat < a.toNat
        · rw [if_pos h2] at h
          cases h
        · rw [if_neg h2] at h
          rw [if_neg h2, if_neg h1]
          exact charsLt_asymm h

theorem charsLt_chain : ∀ (x y z : List Char), charsLt x z = true →
    charsLt x y = true ∨ charsLt y z = true
  | [], _, [], h => by simp [charsLt] at h
  | [], [], _ :: _, _ => Or.inr (by simp [charsLt])
  | [], _ :: _, _ :: _, _ => Or.inl (by simp [charsLt])
  | _ :: _, _, [], h => by simp [charsLt] at h
  | _ :: _, [], _ :: _, _ => Or.inr (by simp [charsLt])
  | a :: as, b :: bs, c :: cs, h => by
      rw [charsLt] at h
      by_cases hab : a.toNat < b.toNat
      · exact Or.inl (by rw [charsLt, if_pos hab])
      · by_cases hac : a.toNat < c.toNat
        · refine Or.inr ?_
          rw [charsLt, if_pos (by omega)]
        · rw [if_neg hac] at h
          by_cases hca : c.toNat < a.toNat
          · rw [if_pos hca] at h
            cases h
          · rw [if_neg hca] at h
            by_cases hba : b.toNat < a.toNat
            · refine Or.inr ?_
              rw [charsLt, if_pos (by omega)]
            · rcases charsLt_chain as bs cs h with hl | hr
              · refine Or.inl ?_
                rw [charsLt, if_neg hab, if_neg hba]
                exact hl
              · refine Or.inr ?_
                rw [charsLt, if_neg (by omega), if_neg (by omega)]
                exact hr

/-- Claim C10: The per-unit table assembled at save time (the input of both
the per-unit CSV and the summary reduction) lists the partition rows in
ascending lexicographic order of the stringified partition keys, as a
permutation of the stored rows — whatever order `addRecord` inserted them
in.  In particular the key "10" sorts before "2", from either arrival
order. -/
theorem C10_table_sorted_by_partition_key (df : ODict (ODict ℚ)) :
    List.Pairwise (fun a b : String × ODict ℚ => strLt b.1 a.1 = false)
      (sortedTable df) ∧
    List.Perm (sortedTable df) df ∧
    sortedTable [("2", [("acc", 1)]), ("10", [("acc", 0)])] =
      [("10", [("acc", 0)]), ("2", [("acc", 1)])] ∧
    sortedTable [("10", [("acc", 0)]), ("2", [("acc", 1)])] =
      [("10", [("acc", 0)]), ("2", [("acc", 1)])] := by
  haveI htot : IsTotal (String × ODict ℚ) (fun a b => strLt b.1 a.1 = false) := by
    constructor
    intro a b
    by_cases h : strLt b.1 a.1 = false
    · exact Or.inl h
    · refine Or.inr ?_
      rw [Bool.not_eq_false] at h
      exact charsLt_asymm h
  haveI htrans : IsTrans (String × ODict ℚ) (fun a b => strLt b.1 a.1 = false) := by
    constructor
    intro a b c hab hbc
    by_contra hac
    rw [Bool.not_eq_false] at hac
    rcases charsLt_chain c.1.data b.1.data a.1.data hac with h | h
    · rw [strLt] at hbc
      rw [hbc] at h
      cases h
    · rw [strLt] at hab
      rw [hab] at h
      cases h
  refine ⟨?_, List.perm_insertionSort _ df, by decide, by decide⟩
  exact List.sorted_insertionSort _ df

/-- Claim C7: The two summary tables assembled at save time have exactly one
labelled row per `ReportUnit` (and `getReportUnit` keeps one unit per
(dataset, configuration) pair), labelled `dataset-configuration`, in
first-insertion order of the units — not sorted: with units first seen in
the order wine, iris, the summary index keeps wine first. -/
theorem C7_summaries_in_first_insertion_order {μ : Type} (rs : Results μ)
    (mns : List String) :
    (buildSummaries rs mns).1.map Prod.fst = summaryIndex rs ∧
    (buildSummaries rs mns).2.map Prod.fst = summaryIndex rs ∧
    summaryIndex rs =
      rs.reports_.map (fun r => pyStrip r.dataset_ ++ "-" ++ r.configuration_) ∧
    (buildSummaries rs mns).1.length = rs.reports_.length ∧
    (buildSummaries rs mns).2.length = rs.reports_.length ∧
    summaryIndex (⟨[ReportUnit.new μ "wine" "cfg1", ReportUnit.new μ "iris" "cfg1"]⟩ :
        Results μ) = ["wine-cfg1", "iris-cfg1"] := by
  refine ⟨?_, ?_, rfl, ?_, ?_, ?_⟩
  · simp [buildSummaries, summaryIndex]
  · simp [buildSummaries, summaryIndex]
  · simp [buildSummaries]
  · simp [buildSummaries]
  · show [pyStrip "wine" ++ "-" ++ "cfg1", pyStrip "iris" ++ "-" ++ "cfg1"] = _
    decide

/-! ## C2 and C1: the `createSummary` reduction -/

/-- The claim's explicit form of one summary row: for the `k`-th metric (in
supplied order) the cells `{metric}_mean` then `{metric}_std`, computed from
the single column at offset `start + 2*k`. -/
def summaryRowSpec (df : List (List ℚ)) : ℕ → List String → List (String × SVal)
  | _, [] => []
  | start, mn :: rest =>
      (mn ++ "_mean", SVal.mean (listMean (column df start))) ::
        (mn ++ "_std", SVal.std (listVar (column df start))) ::
        summaryRowSpec df (start + 2) rest

theorem summaryRowSpec_length (df : List (List ℚ)) : ∀ (mns : List String) (start : ℕ),
    (summaryRowSpec df start mns).length = 2 * mns.length
  | [], _ => rfl
  | mn :: rest, start => by
      have := summaryRowSpec_length df rest (start + 2)
      simp only [summaryRowSpec, List.length_cons, this]
      omega

theorem lookup_zip_self {β : Type} : ∀ (keys : List String) (vals : List β),
    keys.Nodup → keys.length = vals.length → ∀ (i : ℕ) (hi : i < keys.length),
    (List.zip keys vals).lookup (keys.get ⟨i, hi⟩) = vals[i]?
  | [], _, _, _, i, hi => by simp at hi
  | k :: ks, [], _, hlen, _, _ => by simp at hlen
  | k :: ks, v :: vs, hnd, hlen, 0, hi => by simp [List.lookup]
  | k :: ks, v :: vs, hnd, hlen, i + 1, hi => by
      rcases List.nodup_cons.mp hnd with ⟨hnmem, hnd2⟩
      have hiks : i < ks.length := by simpa using hi
      have hget : (k :: ks).get ⟨i + 1, hi⟩ = ks.get ⟨i, hiks⟩ := rfl
      rw [hget, List.zip_cons_cons, List.lookup]
      have hne : (ks.get ⟨i, hiks⟩ == k) = false := by
        simp only [beq_eq_false_iff_ne, ne_eq]
        intro he
        exact hnmem (he ▸ List.get_mem ks i hiks)
      rw [hne]
      have hlen2 : ks.length = vs.length := by simpa using hlen
      have := lookup_zip_self ks vs hnd2 hlen2 i hiks
      rw [this]
      simp

theorem lookup_zip_none {β : Type} (keys : List String) (vals : List β) (k : String)
    (h : k ∉ keys) : (List.zip keys vals).lookup k = none := by
  induction keys generalizing vals with
  | nil => simp
  | cons k0 ks ih =>
      cases vals with
      | nil => simp
      | cons v vs =>
          rw [List.zip_cons_cons, List.lookup]
          have hbeq : (k == k0) = false := by
            simp only [beq_eq_false_iff_ne, ne_eq]
            intro he
            exact h (he ▸ List.mem_cons_self _ _)
          rw [hbeq]
          exact ih vs (fun hm => h (List.mem_cons_of_mem _ hm))

theorem lookup_append2 {β : Type} (l1 l2 : List (String × β)) (k : String) :
    (l1 ++ l2).lookup k =
      match l1.lookup k with
      | some v => some v
      | none => l2.lookup k := by
  induction l1 with
  | nil => simp
  | cons p rest ih =>
      rw [List.cons_append, List.lookup, List.lookup]
      cases hbeq : (k == p.1) with
      | true => rfl
      | false => exact ih

theorem map_interleave {α β : Type} (f : α → β) : ∀ (as bs : List α),
    (interleave as bs).map f = interleave (as.map f) (bs.map f)
  | [], [] => rfl
  | [], _ :: _ => rfl
  | _ :: _, [] => rfl
  | a :: as, b :: bs => by
      simp only [interleave, List.map_cons]
      rw [map_interleave f as bs]

theorem map_lookup_eq_zip {β : Type} (keys : List String) (vals : List β)
    (row0 : List (String × β)) (dflt : β) (hlen : keys.length = vals.length)
    (hlook : ∀ (i : ℕ) (hi : i < keys.length),
      row0.lookup (keys.get ⟨i, hi⟩) = vals[i]?) :
    keys.map (fun n => (n, (row0.lookup n).getD dflt)) = List.zip keys vals := by
  apply List.ext_getElem
  · simp [hlen]
  · intro i h1 h2
    have hik : i < keys.length := by simpa using h1
    have hiv : i < vals.length := by omega
    simp only [List.getElem_map, List.getElem_zip]
    have := hlook i hik
    rw [List.get_eq_getElem] at this
    rw [this, List.getElem?_eq_getElem hiv]
    rfl

theorem summaryHalf_eq (df : List (List ℚ)) (cols : List ℕ)
    (avgIdx stdIdx : List String) (hla : avgIdx.length = cols.length)
    (hls : stdIdx.length = cols.length) (hnd : (avgIdx ++ stdIdx).Nodup) :
    summaryHalf df cols avgIdx stdIdx =
      interleave
        (List.zip avgIdx (cols.map (fun j => SVal.mean (listMean (column df j)))))
        (List.zip stdIdx (cols.map (fun j => SVal.std (listVar (column df j))))) := by
  rcases List.nodup_append.mp hnd with ⟨hnda, hnds, hdisj⟩
  rw [summaryHalf]
  rw [map_interleave]
  congr 1
  · apply map_lookup_eq_zip
    · simp [hla]
    · intro i hi
      have hiv : i < (cols.map (fun j => SVal.mean (listMean (column df j)))).length := by
        simp [← hla]
        omega
      rw [lookup_append2,
        lookup_zip_self avgIdx _ hnda (by simp [hla]) i hi,
        List.getElem?_eq_getElem hiv]
  · apply map_lookup_eq_zip
    · simp [hls]
    · intro i hi
      have hmem : stdIdx.get ⟨i, hi⟩ ∉ avgIdx := by
        intro hmem
        exact hdisj hmem (List.get_mem stdIdx i hi)
      rw [lookup_append2, lookup_zip_none _ _ _ hmem]
      exact lookup_zip_self stdIdx _ hnds (by simp [hls]) i hi

theorem interleave_zip_spec (df : List (List ℚ)) : ∀ (mns : List String) (start : ℕ),
    interleave
      (List.zip (mns.map (fun mn => mn ++ "_mean"))
        (((List.range mns.length).map (fun i => start + 2 * i)).map
          (fun j => SVal.mean (listMean (column df j)))))
      (List.zip (mns.map (fun mn => mn ++ "_std"))
        (((List.range mns.length).map (fun i => start + 2 * i)).map
          (fun j => SVal.std (listVar (column df j))))) =
      summaryRowSpec df start mns
  | [], start => rfl
  | mn :: rest, start => by
      have hcols : (List.range (mn :: rest).length).map (fun i => start + 2 * i) =
          start :: (List.range rest.length).map (fun i => start + 2 + 2 * i) := by
        rw [List.length_cons, List.range_succ_eq_map, List.map_cons, List.map_map]
        congr 1
        apply List.map_congr_left
        intro i _
        show start + 2 * (i + 1) = start + 2 + 2 * i
        omega
      rw [hcols]
      show (mn ++ "_mean", SVal.mean (listMean (column df start))) ::
          (mn ++ "_std", SVal.std (listVar (column df start))) ::
          interleave
            (List.zip (rest.map (fun mn => mn ++ "_mean"))
              (((List.range rest.length).map (fun i => start + 2 + 2 * i)).map
                (fun j => SVal.mean (listMean (column df j)))))
            (List.zip (rest.map (fun mn => mn ++ "_std"))
              (((List.range rest.length).map (fun i => start + 2 + 2 * i)).map
                (fun j => SVal.std (listVar (column df j))))) =
          summaryRowSpec df start (mn :: rest)
      rw [interleave_zip_spec df rest (start + 2)]
      rfl

theorem stride2_eq (P M : ℕ) :
    stride2 P (P + 2 * M) = (List.range M).map (fun i => P + 2 * i) := by
  rw [stride2]
  have h : (P + 2 * M - P + 1) / 2 = M := by omega
  rw [h]

theorem stride2_eq_odd (P M : ℕ) :
    stride2 (P + 1) (P + 2 * M) = (List.range M).map (fun i => P + 1 + 2 * i) := by
  rw [stride2]
  have h : (P + 2 * M - (P + 1) + 1) / 2 = M := by omega
  rw [h]

/-- Reduction of `createSummary` to explicit form: with `C = P + 2M + 4` columns and
distinct generated labels, the train row reduces the even-offset columns
`P, P+2, …` and the test row the odd-offset columns `P+1, P+3, …`, each to
interleaved `{metric}_mean`, `{metric}_std` cells in metric order. -/
theorem createSummary_eq_spec (df : List (List ℚ)) (mns : List String) (P C : ℕ)
    (hC : C = P + 2 * mns.length + 4)
    (hnd : (mns.map (fun mn => mn ++ "_mean") ++
      mns.map (fun mn => mn ++ "_std")).Nodup) :
    (createSummary df C mns).1 = summaryRowSpec df P mns ∧
    (createSummary df C mns).2 = summaryRowSpec df (P + 1) mns := by
  have h1 : C - mns.length * 2 - 4 = P := by omega
  have h2 : C - 4 = P + 2 * mns.length := by omega
  constructor
  · show summaryHalf df (stride2 (C - mns.length * 2 - 4) (C - 4))
      (mns.map (fun mn => mn ++ "_mean")) (mns.map (fun mn => mn ++ "_std")) = _
    rw [h1, h2, stride2_eq]
    rw [summaryHalf_eq df _ _ _ (by simp) (by simp) hnd]
    exact interleave_zip_spec df mns P
  · show summaryHalf df (stride2 (C - mns.length * 2 - 4 + 1) (C - 4))
      (mns.map (fun mn => mn ++ "_mean")) (mns.map (fun mn => mn ++ "_std")) = _
    rw [h1, h2, stride2_eq_odd]
    rw [summaryHalf_eq df _ _ _ (by simp) (by simp) hnd]
    exact interleave_zip_spec df mns (P + 1)

/-- Claim C2: For a table of `C` columns and `M` metric names (`C = P+2M+4`,
generated labels distinct), `createSummary` leaves out the `P` leading
hyperparameter columns and the 4 trailing timing columns, reduces the
even-offset columns of the metric block as the train row and the odd-offset
columns as the test row, and returns for each a single ordered row of
length `2M`, interleaved per metric as `{metric}_mean`, `{metric}_std` in
the supplied metric order (`summaryRowSpec` is exactly that layout). -/
theorem C2_createSummary_layout (df : List (List ℚ)) (mns : List String) (P C : ℕ)
    (hC : C = P + 2 * mns.length + 4)
    (hnd : (mns.map (fun mn => mn ++ "_mean") ++
      mns.map (fun mn => mn ++ "_std")).Nodup) :
    (createSummary df C mns).1 = summaryRowSpec df P mns ∧
    (createSummary df C mns).2 = summaryRowSpec df (P + 1) mns ∧
    ((createSummary df C mns).1).length = 2 * mns.length ∧
    ((createSummary df C mns).2).length = 2 * mns.length := by
  obtain ⟨ha, hb⟩ := createSummary_eq_spec df mns P C hC hnd
  exact ⟨ha, hb, by rw [ha, summaryRowSpec_length], by rw [hb, summaryRowSpec_length]⟩

/-- The spec's P5 example table: one metric (train column 0, test column 1),
3 partitions, 4 trailing timing columns. -/
def exampleDf : List (List ℚ) :=
  [[8/10, 7/10, 1, 1, 1, 1], [9/10, 75/100, 1, 1, 1, 1], [1, 8/10, 1, 1, 1, 1]]

/-- Closed instance of C2 at the example table. -/
theorem C2_witness :
    (6 : ℕ) = 0 + 2 * (["acc"] : List String).length + 4 ∧
    (createSummary exampleDf 6 ["acc"]).1 = summaryRowSpec exampleDf 0 ["acc"] ∧
    (createSummary exampleDf 6 ["acc"]).2 = summaryRowSpec exampleDf 1 ["acc"] := by
  refine ⟨by decide, ?_, ?_⟩
  · exact (C2_createSummary_layout exampleDf ["acc"] 0 6 (by decide) (by decide)).1
  · exact (C2_createSummary_layout exampleDf ["acc"] 0 6 (by decide) (by decide)).2.1

/-- Claim C1: Per metric column, independently for the train and test
sub-tables, `createSummary` computes the arithmetic mean, and the sample
standard deviation with `n-1` denominator (represented by the sample
variance it is the square root of); with fewer than 2 partition rows the
std cell is `NaN` (`none`), not an error.  On the spec's example (train
column `[0.8, 0.9, 1.0]`, test column `[0.7, 0.75, 0.8]`) it yields train
`acc_mean = 0.9`, `acc_std = 0.1` and test `acc_mean = 0.75`,
`acc_std = 0.05` (the std cells hold the variances `0.01` and `0.0025`,
whose nonnegative square roots are `0.1` and `0.05`). -/
theorem C1_createSummary_mean_and_sample_std :
    (∀ xs : List ℚ, 1 ≤ xs.length → listMean xs = some (xs.sum / (xs.length : ℚ))) ∧
    (∀ xs : List ℚ, 2 ≤ xs.length →
      listVar xs = some ((xs.map (fun x => (x - xs.sum / (xs.length : ℚ)) ^ 2)).sum /
        ((xs.length : ℚ) - 1))) ∧
    (∀ xs : List ℚ, xs.length < 2 → listVar xs = none) ∧
    (∀ (df : List (List ℚ)) (mns : List String) (P C : ℕ),
      C = P + 2 * mns.length + 4 →
      (mns.map (fun mn => mn ++ "_mean") ++ mns.map (fun mn => mn ++ "_std")).Nodup →
      (createSummary df C mns).1 = summaryRowSpec df P mns ∧
      (createSummary df C mns).2 = summaryRowSpec df (P + 1) mns) ∧
    (createSummary exampleDf 6 ["acc"]).1 =
      [("acc_mean", SVal.mean (some (9/10))), ("acc_std", SVal.std (some (1/100)))] ∧
    (createSummary exampleDf 6 ["acc"]).2 =
      [("acc_mean", SVal.mean (some (3/4))), ("acc_std", SVal.std (some (1/400)))] ∧
    (0 ≤ (1/10 : ℚ) ∧ ((1/10 : ℚ)) ^ 2 = 1/100 ∧ 0 ≤ (1/20 : ℚ) ∧
      ((1/20 : ℚ)) ^ 2 = 1/400) ∧
    (createSummary [[1, 2, 1, 1, 1, 1]] 6 ["acc"]).1 =
      [("acc_mean", SVal.mean (some 1)), ("acc_std", SVal.std none)] := by
  have hmean : ∀ xs : List ℚ, 1 ≤ xs.length →
      listMean xs = some (xs.sum / (xs.length : ℚ)) := by
    intro xs h
    rw [listMean, if_neg (by omega)]
  have hvar : ∀ xs : List ℚ, 2 ≤ xs.length →
      listVar xs = some ((xs.map (fun x => (x - xs.sum / (xs.length : ℚ)) ^ 2)).sum /
        ((xs.length : ℚ) - 1)) := by
    intro xs h
    rw [listVar, if_neg (by omega), hmean xs (by omega)]
  have hvar2 : ∀ xs : List ℚ, xs.length < 2 → listVar xs = none := by
    intro xs h
    rw [listVar, if_pos h]
  have hc0 : column exampleDf 0 = [8/10, 9/10, 1] := rfl
  have hc1 : column exampleDf 1 = [7/10, 75/100, 8/10] := rfl
  refine ⟨hmean, hvar, hvar2, fun df mns P C hC hnd => createSummary_eq_spec df mns P C hC hnd,
    ?_, ?_, by norm_num, ?_⟩
  · rw [(createSummary_eq_spec exampleDf ["acc"] 0 6 (by decide) (by decide)).1]
    show [("acc" ++ "_mean", SVal.mean (listMean (column exampleDf 0))),
      ("acc" ++ "_std", SVal.std (listVar (column exampleDf 0)))] = _
    rw [hc0]
    norm_num [listMean, listVar]
    decide
  · rw [(createSummary_eq_spec exampleDf ["acc"] 0 6 (by decide) (by decide)).2]
    show [("acc" ++ "_mean", SVal.mean (listMean (column exampleDf 1))),
      ("acc" ++ "_std", SVal.std (listVar (column exampleDf 1)))] = _
    rw [hc1]
    norm_num [listMean, listVar]
    decide
  · rw [(createSummary_eq_spec [[1, 2, 1, 1, 1, 1]] ["acc"] 0 6 (by decide) (by decide)).1]
    show [("acc" ++ "_mean", SVal.mean (listMean (column [[1, 2, 1, 1, 1, 1]] 0))),
      ("acc" ++ "_std", SVal.std (listVar (column [[1, 2, 1, 1, 1, 1]] 0)))] = _
    have : column [[1, 2, 1, 1, 1, 1]] 0 = [1] := rfl
    rw [this]
    norm_num [listMean, listVar]
    decide

/-- Closed instance of C1: the mean formula applied to the example train
column. -/
theorem C1_witness :
    1 ≤ ([8/10, 9/10, 1] : List ℚ).length ∧
    listMean [8/10, 9/10, 1] =
      some (([8/10, 9/10, 1] : List ℚ).sum / (([8/10, 9/10, 1] : List ℚ).length : ℚ)) :=
  ⟨by decide, C1_createSummary_mean_and_sample_std.1 [8/10, 9/10, 1] (by decide)⟩

end Orca